import Mathlib

/-!
# Verification of `mousebender.simple` (Simple Repository API parser)

A shallow embedding of `src/mousebender/simple.py` over `List Char` strings.
HTML tokenizer events (the external `html.parser.HTMLParser` collaborator)
are modelled as an explicit event list; the repository's event handlers
(`_SimpleIndexHTMLParser`, `_ArchiveLinkHTMLParser`) and the assembler
functions (`from_project_index_html`, `from_project_details_html`,
`create_project_url`) are translated directly.  The standard-library
collaborators (`urllib.parse.urlparse/urlunparse/unquote`, `html.unescape`,
`packaging.utils.canonicalize_name`) are modelled from their CPython
semantics on the domains the parser exercises, as documented at each
definition.
-/

deriving instance DecidableEq for Except

/-- Strings are modelled as lists of characters. -/
abbrev Str := List Char

/-- Coerce a Lean string literal into the `Str` model. -/
def str (s : String) : Str := s.data

/-- Split a string at the first occurrence of `sep` (Python `s.split(sep, 1)`
when it returns two pieces); `none` when `sep` does not occur. -/
def splitOnce (sep : Char) : Str → Option (Str × Str)
  | [] => none
  | c :: rest =>
    if c = sep then some ([], rest)
    else match splitOnce sep rest with
      | none => none
      | some (l, r) => some (c :: l, r)

/-- Split a string at the last occurrence of `sep`; `none` when absent. -/
def splitLast (sep : Char) (s : Str) : Option (Str × Str) :=
  match splitOnce sep s.reverse with
  | some (a, b) => some (b.reverse, a.reverse)
  | none => none

/-- Python `s.partition(sep)` restricted to the pieces the source uses:
the part before the first `sep` and the part after it; when `sep` is
missing the whole string is the left part and the right part is empty. -/
def partitionOnce (sep : Char) (s : Str) : Str × Str :=
  match splitOnce sep s with
  | some p => p
  | none => (s, [])

/-- The last component of Python `s.rpartition(sep)`: the part after the
last occurrence of `sep`, or the whole string when `sep` is absent. -/
def rpartitionLast (sep : Char) (s : Str) : Str :=
  match splitLast sep s with
  | some (_, a) => a
  | none => s

/-- Uppercase ASCII letters paired with their lowercase forms. -/
def lowerTable : List (Char × Char) :=
  [('A','a'), ('B','b'), ('C','c'), ('D','d'), ('E','e'), ('F','f'), ('G','g'),
   ('H','h'), ('I','i'), ('J','j'), ('K','k'), ('L','l'), ('M','m'), ('N','n'),
   ('O','o'), ('P','p'), ('Q','q'), ('R','r'), ('S','s'), ('T','t'), ('U','u'),
   ('V','v'), ('W','w'), ('X','x'), ('Y','y'), ('Z','z')]

/-- Model of Python `str.lower` on a single character (ASCII range; the
names and attribute values the parser lowercases are ASCII). -/
def pyLower (c : Char) : Char :=
  match lowerTable.lookup c with
  | some l => l
  | none => c

/-- Model of Python `str.lower` on a whole string. -/
def lowerStr (s : Str) : Str := s.map pyLower

/-- Model of `html.unescape` for the named character references that occur
in Simple-API attribute values (`&lt; &gt; &amp; &quot; &apos;`); other
text is returned unchanged. -/
def unescape : Str → Str
  | '&' :: 'l' :: 't' :: ';' :: rest => '<' :: unescape rest
  | '&' :: 'g' :: 't' :: ';' :: rest => '>' :: unescape rest
  | '&' :: 'a' :: 'm' :: 'p' :: ';' :: rest => '&' :: unescape rest
  | '&' :: 'q' :: 'u' :: 'o' :: 't' :: ';' :: rest => '"' :: unescape rest
  | '&' :: 'a' :: 'p' :: 'o' :: 's' :: ';' :: rest => '\'' :: unescape rest
  | c :: rest => c :: unescape rest
  | [] => []

/-- Value of a hexadecimal digit character, if it is one. -/
def hexVal (c : Char) : Option Nat :=
  if '0' ≤ c ∧ c ≤ '9' then some (c.toNat - 48)
  else if 'a' ≤ c ∧ c ≤ 'f' then some (c.toNat - 87)
  else if 'A' ≤ c ∧ c ≤ 'F' then some (c.toNat - 55)
  else none

/-- Model of `urllib.parse.unquote`: percent-escapes `%XX` decode to the
character with code `XX`; malformed escapes pass through unchanged.
Restricted to the ASCII range (multi-byte UTF-8 escape sequences, which
never occur in Simple-API filenames, are left undecoded). -/
def unquote : Str → Str
  | '%' :: a :: b :: rest =>
    (match hexVal a, hexVal b with
     | some h, some l =>
       if h * 16 + l < 128 then Char.ofNat (h * 16 + l) :: unquote rest
       else '%' :: unquote (a :: b :: rest)
     | _, _ => '%' :: unquote (a :: b :: rest))
  | c :: rest => c :: unquote rest
  | [] => []

/-- Characters the canonicalization rule collapses: `re` class `[-_.]`. -/
def isSepChar (c : Char) : Bool := c = '-' || c = '_' || c = '.'

/-- Model of `re.sub(r"[-_.]+", "-", name)`: every maximal run of `-`,
`_`, `.` becomes a single `-`.  The flag records whether the previous
character belonged to such a run. -/
def collapseRuns (inRun : Bool) : Str → Str
  | [] => []
  | c :: rest =>
    if isSepChar c then
      (if inRun then collapseRuns true rest else '-' :: collapseRuns true rest)
    else c :: collapseRuns false rest

/-- Model of `packaging.utils.canonicalize_name`:
`re.sub(r"[-_.]+", "-", name).lower()`. -/
def canonicalizeName (s : Str) : Str := lowerStr (collapseRuns false s)

/-- Python truthiness-aware check `base_url.endswith("/")`. -/
def endsWithSlash (s : Str) : Bool := s.getLast? = some '/'

/-- `create_project_url` (simple.py lines 26-37): append a `/` to a
non-empty base URL that does not already end in one, then join the
canonicalized project name and a trailing `/`. -/
def createProjectUrl (baseUrl projectName : Str) : Str :=
  let b := if baseUrl ≠ [] ∧ ¬ endsWithSlash baseUrl then baseUrl ++ ['/'] else baseUrl
  b ++ canonicalizeName projectName ++ ['/']

/-! ## URL parsing (model of `urllib.parse`) -/

/-- The six components returned by `urllib.parse.urlparse`. -/
structure UrlParts where
  scheme : Str
  netloc : Str
  path : Str
  params : Str
  query : Str
  fragment : Str
deriving DecidableEq, Repr

/-- Characters permitted in a URL scheme (`urllib.parse.scheme_chars`). -/
def schemeChar (c : Char) : Bool :=
  c.isAlpha || c.isDigit || c = '+' || c = '-' || c = '.'

/-- Scheme extraction step of CPython `urlsplit`: a `:` at a positive
index, preceded only by scheme characters starting with a letter, splits
off a lowercased scheme. -/
def splitScheme (url : Str) : Str × Str :=
  match splitOnce ':' url with
  | some (before, after) =>
    (match before with
     | [] => ([], url)
     | b :: _ =>
       if b.isAlpha ∧ before.all schemeChar then (lowerStr before, after)
       else ([], url))
  | none => ([], url)

/-- Characters that terminate the network-location component. -/
def netDelim (c : Char) : Bool := c = '/' || c = '?' || c = '#'

/-- Netloc extraction step of CPython `urlsplit`: after a leading `//`,
the netloc runs to the first `/`, `?` or `#`. -/
def splitNetloc (rest : Str) : Str × Str :=
  if rest.take 2 = str "//" then
    ((rest.drop 2).takeWhile (fun c => ¬ netDelim c),
     (rest.drop 2).dropWhile (fun c => ¬ netDelim c))
  else ([], rest)

/-- The schemes whose paths carry `;`-parameters
(`urllib.parse.uses_params`, minus the empty string, handled at the call
site below). -/
def usesParams : List Str :=
  [str "ftp", str "hdl", str "prospero", str "http", str "imap",
   str "https", str "shttp", str "rtsp", str "rtsps", str "rtspu",
   str "sip", str "sips", str "mms", str "sftp", str "tel"]

/-- Parameter extraction of CPython `urlparse` (`_splitparams`): split the
path at the first `;` occurring in its final `/`-segment. -/
def splitParams (p : Str) : Str × Str :=
  match splitLast '/' p with
  | some (before, after) =>
    (match splitOnce ';' after with
     | some (x, y) => (before ++ '/' :: x, y)
     | none => (p, []))
  | none =>
    (match splitOnce ';' p with
     | some (x, y) => (x, y)
     | none => (p, []))

/-- CPython `urlsplit` input scrubbing: strip leading C0-control/space
characters, then remove every tab, carriage return and newline. -/
def scrubUrl (url : Str) : Str :=
  (url.dropWhile (fun c => c.toNat ≤ 32)).filter
    (fun c => ¬ (c = '\t' ∨ c = '\r' ∨ c = '\n'))

/-- Model of `urllib.parse.urlparse` (CPython 3.11 `urlsplit` plus
`_splitparams`); the extra validation of bracketed IPv6 hosts and of
non-ASCII netlocs, which can only reject inputs, is not modelled beyond
the bracket-matching check below. -/
def urlparse (url : Str) : UrlParts :=
  let sr := splitScheme (scrubUrl url)
  let nr := splitNetloc sr.2
  let fr := match splitOnce '#' nr.2 with
    | some (a, b) => (a, b)
    | none => (nr.2, ([] : Str))
  let qr := match splitOnce '?' fr.1 with
    | some (a, b) => (a, b)
    | none => (fr.1, ([] : Str))
  let pp :=
    if sr.1 = [] ∨ sr.1 ∈ usesParams then splitParams qr.1 else (qr.1, ([] : Str))
  ⟨sr.1, nr.1, pp.1, pp.2, qr.2, fr.2⟩

/-- CPython's consistency check on the netloc: `[` and `]` must occur
together or not at all, else `urlparse` raises `ValueError`. -/
def netlocBracketsOk (netloc : Str) : Bool :=
  (netloc.contains '[') = (netloc.contains ']')

/-- The schemes for which CPython `urlunsplit` re-inserts `//`
(`urllib.parse.uses_netloc`, minus the empty string, which is covered by
the `scheme` truthiness test guarding the membership check). -/
def usesNetloc : List Str :=
  [str "ftp", str "http", str "gopher", str "nntp", str "telnet",
   str "imap", str "wais", str "file", str "mms", str "https", str "shttp",
   str "snews", str "prospero", str "rtsp", str "rtsps", str "rtspu",
   str "rsync", str "svn", str "svn+ssh", str "sftp", str "nfs",
   str "git", str "git+ssh", str "ws", str "wss"]

/-- Model of `urllib.parse.urlunparse` (CPython 3.11) as the source calls
it on line 153: the first five parsed components with the fragment
replaced by `""`. -/
def urlunparse5 (u : UrlParts) : Str :=
  let url0 := if u.params ≠ [] then u.path ++ ';' :: u.params else u.path
  let url1 :=
    if u.netloc ≠ [] ∨
       (u.scheme ≠ [] ∧ u.scheme ∈ usesNetloc ∧ url0.take 2 ≠ str "//") then
      str "//" ++ u.netloc ++
        (if url0 ≠ [] ∧ url0.head? ≠ some '/' then '/' :: url0 else url0)
    else url0
  let url2 := if u.scheme ≠ [] then u.scheme ++ ':' :: url1 else url1
  if u.query ≠ [] then url2 ++ '?' :: u.query else url2

/-! ## Tokenizer events and the two HTML parsers -/

/-- Events delivered by the `html.parser.HTMLParser` collaborator:
`handle_starttag` (tag name plus attribute list, attribute values
optional), `handle_endtag`, and `handle_data`. -/
inductive Event
  | start : Str → List (Str × Option Str) → Event
  | stop : Str → Event
  | text : Str → Event
deriving DecidableEq, Repr

/-- The attribute name `"href"`. -/
def strHref : Str := str "href"

/-- The tag name `"a"`. -/
def strA : Str := str "a"

/-- The literal `"true"`. -/
def strTrue : Str := str "true"

/-- The attribute name `"data-requires-python"`. -/
def strDRP : Str := str "data-requires-python"

/-- The attribute name `"data-gpg-sig"`. -/
def strGPG : Str := str "data-gpg-sig"

/-- The attribute name `"data-yanked"`. -/
def strYanked : Str := str "data-yanked"

/-- The attribute name `"data-dist-info-metadata"`. -/
def strDIM : Str := str "data-dist-info-metadata"

/-- Model of `dict(attrs_list)[name]`: the value bound to the last
occurrence of `name` (later duplicates overwrite earlier ones), the outer
`Option` recording key presence and the inner one a valueless attribute. -/
def lookupLast (attrs : List (Str × Option Str)) (name : Str) : Option (Option Str) :=
  attrs.foldl (fun acc p => if p.1 = name then some p.2 else acc) none

/-- The `href` that line 144 accepts: present and non-empty (Python
truthiness), else the anchor is skipped. -/
def acceptedHref (attrs : List (Str × Option Str)) : Option Str :=
  match lookupLast attrs strHref with
  | some (some h) => if h = [] then none else some h
  | _ => none

/-- Per-anchor `args` dictionary built by
`_ArchiveLinkHTMLParser.handle_starttag` (lines 154-196). -/
structure Args where
  filename : Str
  url : Str
  hashes : Option (Str × Str)
  requiresPython : Option Str
  gpgSig : Option Bool
  yanked : Option (Bool ⊕ Str)
  metadata : Option (Str × Str)
deriving DecidableEq, Repr

/-- Hash extraction from a URL fragment (lines 158-160): an empty
fragment records nothing; a non-empty fragment must contain `=`
(`fragment.split("=", 1)` unpacked into two names raises `ValueError`
otherwise) and yields the lowercased algorithm and the digest. -/
def fragHashes (frag : Str) : Except Unit (Option (Str × Str)) :=
  if frag = [] then .ok none
  else match splitOnce '=' frag with
    | none => .error ()
    | some (alg, v) => .ok (some (lowerStr alg, v))

/-- The `data-dist-info-metadata` decoding of lines 182-196: a present,
non-empty value other than `"true"` is partitioned at the first `=` into
a lowercased algorithm and digest; otherwise the sentinel `("", "")`. -/
def distInfoValue : Option Str → Str × Str
  | some v =>
    if v ≠ [] ∧ v ≠ strTrue then
      (lowerStr (partitionOnce '=' v).1, (partitionOnce '=' v).2)
    else ([], [])
  | none => ([], [])

/-- The fields stored into `args` for one accepted anchor, given its
parsed URL and fragment hash (lines 151-196). -/
def buildArgs (attrs : List (Str × Option Str)) (u : UrlParts)
    (hash : Option (Str × Str)) : Args :=
  { filename := unquote (rpartitionLast '/' u.path)
    url := urlunparse5 u
    hashes := hash
    requiresPython :=
      match lookupLast attrs strDRP with
      | some (some v) => if v = [] then none else some (unescape v)
      | _ => none
    gpgSig :=
      match lookupLast attrs strGPG with
      | none => none
      | some v => some (decide (v = some strTrue))
    yanked :=
      match lookupLast attrs strYanked with
      | none => none
      | some none => some (Sum.inl true)
      | some (some v) => if v = [] then some (Sum.inl true) else some (Sum.inr v)
    metadata :=
      match lookupLast attrs strDIM with
      | none => none
      | some fm => some (distInfoValue fm) }

/-- `_ArchiveLinkHTMLParser.handle_starttag` for an `<a>` tag: skip the
anchor without an accepted `href`; `urlparse` raises on mismatched
netloc brackets; a malformed non-empty fragment raises; otherwise the
anchor's `args` are produced. -/
def handleAnchor (attrs : List (Str × Option Str)) : Except Unit (Option Args) :=
  match acceptedHref attrs with
  | none => .ok none
  | some href =>
    let u := urlparse href
    if netlocBracketsOk u.netloc then
      match fragHashes u.fragment with
      | .error e => .error e
      | .ok h => .ok (some (buildArgs attrs u h))
    else .error ()

/-- Feeding a document's events through `_ArchiveLinkHTMLParser`:
the collected `archive_links`, or the first raised error. -/
def parseEvents : List Event → Except Unit (List Args)
  | [] => .ok []
  | Event.start tag attrs :: rest =>
    if tag = strA then
      match handleAnchor attrs with
      | .error e => .error e
      | .ok none => parseEvents rest
      | .ok (some a) =>
        (match parseEvents rest with
         | .error e => .error e
         | .ok l => .ok (a :: l))
    else parseEvents rest
  | _ :: rest => parseEvents rest

/-- One file record of `ProjectFileDetails_1_0`: required `filename`,
`url`, `hashes`; optional attribute-derived fields. -/
structure ProjectFileDetails where
  filename : Str
  url : Str
  hashes : List (Str × Str)
  requiresPython : Option Str
  distInfoMetadata : Option (Bool ⊕ List (Str × Str))
  gpgSig : Option Bool
  yanked : Option (Bool ⊕ Str)
deriving DecidableEq, Repr

/-- The per-link assembly loop of `from_project_details_html`
(lines 206-223): the hash pair becomes a one-entry mapping, the metadata
pair becomes a mapping or the boolean `true` depending on whether its
algorithm is empty, and the optional attribute fields are copied. -/
def assemble (a : Args) : ProjectFileDetails :=
  { filename := a.filename
    url := a.url
    hashes :=
      match a.hashes with
      | none => []
      | some p => [p]
    requiresPython := a.requiresPython
    distInfoMetadata :=
      match a.metadata with
      | none => none
      | some (alg, v) =>
        if alg ≠ [] then some (Sum.inr [(alg, v)]) else some (Sum.inl true)
    gpgSig := a.gpgSig
    yanked := a.yanked }

/-- `ProjectDetails_1_0`: the version envelope, canonicalized name and
file records. -/
structure ProjectDetails where
  apiVersion : Str
  name : Str
  files : List ProjectFileDetails
deriving DecidableEq, Repr

/-- `from_project_details_html` (lines 201-228) over tokenizer events. -/
def fromProjectDetailsHtml (name : Str) (events : List Event) :
    Except Unit ProjectDetails :=
  match parseEvents events with
  | .error e => .error e
  | .ok links => .ok ⟨str "1.0", canonicalizeName name, links.map assemble⟩

/-- `_SimpleIndexHTMLParser` (lines 90-116): a single `_parsing_anchor`
flag set by `<a>` start tags, cleared by `</a>` end tags; every text
chunk seen while the flag is set is appended as a name. -/
def indexNames (inAnchor : Bool) : List Event → List Str
  | [] => []
  | Event.start tag _ :: rest =>
    indexNames (if tag = strA then true else inAnchor) rest
  | Event.stop tag :: rest =>
    indexNames (if tag = strA then false else inAnchor) rest
  | Event.text d :: rest =>
    if inAnchor then d :: indexNames inAnchor rest else indexNames inAnchor rest

/-- `ProjectIndex_1_0`: the version envelope and the discovered names
(each `projects` entry is the single-key record `{"name": n}`, modelled
by the name itself). -/
structure ProjectIndex where
  apiVersion : Str
  projects : List Str
deriving DecidableEq, Repr

/-- `from_project_index_html` (lines 119-127) over tokenizer events. -/
def fromProjectIndexHtml (events : List Event) : ProjectIndex :=
  ⟨str "1.0", indexNames false events⟩

/-! ## Spec-side vocabulary used to state the claims -/

/-- The spec's phrase "the href with any fragment removed": everything
before the first `#`, or the whole string when there is no `#`. -/
def stripFragment (s : Str) : Str :=
  match splitOnce '#' s with
  | some (a, _) => a
  | none => s

/-- An event is an anchor start tag whose `href` line 144 accepts. -/
def isAcceptedAnchor : Event → Bool
  | Event.start tag attrs => tag = strA && (acceptedHref attrs).isSome
  | _ => false

/-- An index-page item: either stray text outside any anchor, or an
attribute-free anchor containing exactly one text chunk. -/
def renderIndexItem : Str ⊕ Str → List Event
  | Sum.inl t => [Event.text t]
  | Sum.inr nm => [Event.start strA [], Event.text nm, Event.stop strA]

/-- An index page in which every anchor has no attributes and only text
content, with arbitrary text between anchors. -/
def renderIndexDoc (items : List (Str ⊕ Str)) : List Event :=
  (items.map renderIndexItem).flatten

/-! ## General lemmas about the string-splitting helpers -/

theorem splitOnce_none_of_not_mem {sep : Char} :
    ∀ {s : Str}, sep ∉ s → splitOnce sep s = none := by
  intro s
  induction s with
  | nil => intro _; rfl
  | cons c rest ih =>
    intro h
    have hc : ¬ c = sep := fun hcs => h (hcs ▸ List.mem_cons_self c rest)
    have hr : sep ∉ rest := fun hm => h (List.mem_cons_of_mem c hm)
    simp only [splitOnce, if_neg hc, ih hr]

theorem splitOnce_some_decomp {sep : Char} :
    ∀ {s a b : Str}, splitOnce sep s = some (a, b) → s = a ++ sep :: b ∧ sep ∉ a := by
  intro s
  induction s with
  | nil => intro a b h; cases h
  | cons c rest ih =>
    intro a b h
    simp only [splitOnce] at h
    by_cases hc : c = sep
    · rw [if_pos hc] at h
      injection h with h'
      injection h' with h1 h2
      subst h1; subst h2; subst hc
      exact ⟨rfl, List.not_mem_nil _⟩
    · rw [if_neg hc] at h
      cases hr : splitOnce sep rest with
      | none => rw [hr] at h; cases h
      | some p =>
        obtain ⟨l, r⟩ := p
        rw [hr] at h
        injection h with h'
        injection h' with h1 h2
        obtain ⟨hd, hnm⟩ := ih hr
        subst h2
        rw [← h1, hd]
        refine ⟨rfl, ?_⟩
        intro hm
        rcases List.mem_cons.mp hm with h | h
        · exact hc h.symm
        · exact hnm h

theorem splitOnce_of_append {sep : Char} {b : Str} :
    ∀ {a : Str}, sep ∉ a → splitOnce sep (a ++ sep :: b) = some (a, b) := by
  intro a
  induction a with
  | nil => intro _; simp [splitOnce]
  | cons c rest ih =>
    intro h
    have hc : ¬ c = sep := fun hcs => h (hcs ▸ List.mem_cons_self c rest)
    have hr : sep ∉ rest := fun hm => h (List.mem_cons_of_mem c hm)
    show splitOnce sep (c :: (rest ++ sep :: b)) = some (c :: rest, b)
    simp only [splitOnce, if_neg hc, ih hr]

theorem splitLast_some_decomp {sep : Char} {s a b : Str}
    (h : splitLast sep s = some (a, b)) : s = a ++ sep :: b := by
  unfold splitLast at h
  cases hr : splitOnce sep s.reverse with
  | none => rw [hr] at h; cases h
  | some p =>
    obtain ⟨x, y⟩ := p
    rw [hr] at h
    injection h with h'
    injection h' with h1 h2
    obtain ⟨hd, _⟩ := splitOnce_some_decomp hr
    have := congrArg List.reverse hd
    simp only [List.reverse_reverse, List.reverse_append, List.reverse_cons] at this
    rw [this, ← h1, ← h2]
    simp

theorem splitParams_no_semi {p : Str} (h : ';' ∉ p) : splitParams p = (p, []) := by
  cases hl : splitLast '/' p with
  | none => simp only [splitParams, hl, splitOnce_none_of_not_mem h]
  | some q =>
    obtain ⟨before, after⟩ := q
    have hd := splitLast_some_decomp hl
    have hafter : ';' ∉ after := by
      intro hm
      exact h (hd ▸ List.mem_append_right before (List.mem_cons_of_mem '/' hm))
    simp only [splitParams, hl, splitOnce_none_of_not_mem hafter]

/-- `List.lookup` only returns pairs present in the list. -/
theorem lookup_mem_pair : ∀ (l : List (Char × Char)) (k v : Char),
    l.lookup k = some v → (k, v) ∈ l := by
  intro l
  induction l with
  | nil => intro k v h; cases h
  | cons p rest ih =>
    intro k v h
    simp only [List.lookup] at h
    by_cases hk : k == p.1
    · rw [hk] at h
      injection h with h'
      have := eq_of_beq hk
      subst this; subst h'
      left
    · rw [Bool.not_eq_true] at hk
      rw [hk] at h
      exact List.mem_cons_of_mem p (ih k v h)

/-! ## Canonicalization lemmas -/

theorem pyLower_pyLower (c : Char) : pyLower (pyLower c) = pyLower c := by
  unfold pyLower
  cases h : lowerTable.lookup c with
  | none => rw [h]
  | some l =>
    have hm := lookup_mem_pair _ _ _ h
    have hval : ∀ p ∈ lowerTable, lowerTable.lookup p.2 = none := by decide
    rw [hval (c, l) hm]

theorem isSepChar_pyLower (c : Char) : isSepChar (pyLower c) = isSepChar c := by
  unfold pyLower
  cases h : lowerTable.lookup c with
  | none => rfl
  | some l =>
    have hm := lookup_mem_pair _ _ _ h
    have hsep : ∀ p ∈ lowerTable, isSepChar p.1 = false ∧ isSepChar p.2 = false := by decide
    rw [(hsep (c, l) hm).1, (hsep (c, l) hm).2]

theorem pyLower_sep (c : Char) (h : isSepChar c = true) : pyLower c = c := by
  unfold pyLower
  cases hl : lowerTable.lookup c with
  | none => rfl
  | some l =>
    have hm := lookup_mem_pair _ _ _ hl
    have hsep : ∀ p ∈ lowerTable, isSepChar p.1 = false := by decide
    rw [hsep (c, l) hm] at h
    cases h

theorem collapseRuns_lowerStr : ∀ (l : Str) (b : Bool),
    collapseRuns b (lowerStr l) = lowerStr (collapseRuns b l) := by
  intro l
  induction l with
  | nil => intro b; rfl
  | cons c rest ih =>
    intro b
    show collapseRuns b (pyLower c :: lowerStr rest) = lowerStr (collapseRuns b (c :: rest))
    by_cases hs : isSepChar c = true
    · simp only [collapseRuns, isSepChar_pyLower, hs, if_pos]
      cases b with
      | false =>
        simp only [Bool.false_eq_true, if_neg, ih]
        show '-' :: lowerStr (collapseRuns true rest) = lowerStr ('-' :: collapseRuns true rest)
        simp [lowerStr, pyLower_sep '-' (by decide)]
      | true => simp only [if_pos, ih]
    · have hs' : isSepChar c = false := Bool.not_eq_true _ ▸ eq_false_of_ne_true hs
      simp only [collapseRuns, isSepChar_pyLower, hs']
      simp only [Bool.false_eq_true, if_neg, not_false_iff, ih]
      rfl

theorem collapseRuns_idem : ∀ (l : Str) (b : Bool),
    collapseRuns b (collapseRuns b l) = collapseRuns b l := by
  intro l
  induction l with
  | nil => intro b; rfl
  | cons c rest ih =>
    intro b
    by_cases hs : isSepChar c = true
    · cases b with
      | true =>
        simp only [collapseRuns, hs, if_pos, if_true]
        exact ih true
      | false =>
        simp only [collapseRuns, hs, if_pos]
        simp only [Bool.false_eq_true, if_neg, not_false_iff]
        show collapseRuns false ('-' :: collapseRuns true rest) = '-' :: collapseRuns true rest
        simp only [collapseRuns, if_pos (show isSepChar '-' = true by decide)]
        simp only [Bool.false_eq_true, if_neg, not_false_iff]
        rw [ih true]
    · have hs' : isSepChar c = false := Bool.not_eq_true _ ▸ eq_false_of_ne_true hs
      simp only [collapseRuns, hs', Bool.false_eq_true, if_neg, not_false_iff]
      rw [ih false]

theorem lowerStr_lowerStr (l : Str) : lowerStr (lowerStr l) = lowerStr l := by
  unfold lowerStr
  rw [List.map_map]
  exact List.map_congr_left (fun c _ => pyLower_pyLower c)

theorem canonicalizeName_idem (s : Str) :
    canonicalizeName (canonicalizeName s) = canonicalizeName s := by
  unfold canonicalizeName
  rw [collapseRuns_lowerStr, lowerStr_lowerStr, collapseRuns_idem]

/-! ## URL round-trip lemmas for scheme-free hrefs -/

theorem urlparse_simple {href : Str}
    (hscrub : scrubUrl href = href) (hc : ':' ∉ href) (hs : ';' ∉ href)
    (hq : '?' ∉ href) (hn : href.take 2 ≠ str "//") :
    urlparse href =
      ⟨[], [], stripFragment href, [], [],
        match splitOnce '#' href with
        | some (_, b) => b
        | none => []⟩ := by
  have h1 : splitScheme href = ([], href) := by
    simp only [splitScheme, splitOnce_none_of_not_mem hc]
  have h2 : splitNetloc href = ([], href) := by
    simp only [splitNetloc, if_neg hn]
  cases h3 : splitOnce '#' href with
  | none =>
    have h4 : splitOnce '?' href = none := splitOnce_none_of_not_mem hq
    have h5 : splitParams href = (href, []) := splitParams_no_semi hs
    simp [urlparse, hscrub, h1, h2, h3, h4, h5, stripFragment]
  | some q =>
    obtain ⟨a, b⟩ := q
    obtain ⟨hd, _⟩ := splitOnce_some_decomp h3
    have hqa : '?' ∉ a := fun hm => hq (hd ▸ List.mem_append_left _ hm)
    have hsa : ';' ∉ a := fun hm => hs (hd ▸ List.mem_append_left _ hm)
    have h4 : splitOnce '?' a = none := splitOnce_none_of_not_mem hqa
    have h5 : splitParams a = (a, []) := splitParams_no_semi hsa
    simp [urlparse, hscrub, h1, h2, h3, h4, h5, stripFragment]

theorem urlunparse5_no_scheme_netloc (p f : Str) :
    urlunparse5 ⟨[], [], p, [], [], f⟩ = p := by
  simp [urlunparse5]

/-! ## Inversion lemmas for the archive-link extractor -/

theorem handleAnchor_ok_some {attrs : List (Str × Option Str)} {a : Args}
    (h : handleAnchor attrs = .ok (some a)) :
    ∃ href hash, acceptedHref attrs = some href ∧
      netlocBracketsOk (urlparse href).netloc = true ∧
      fragHashes (urlparse href).fragment = .ok hash ∧
      a = buildArgs attrs (urlparse href) hash := by
  cases hh : acceptedHref attrs with
  | none =>
    simp only [handleAnchor, hh] at h
    exact absurd h (by simp)
  | some href =>
    simp only [handleAnchor, hh] at h
    by_cases hb : netlocBracketsOk (urlparse href).netloc
    · rw [if_pos hb] at h
      cases hf : fragHashes (urlparse href).fragment with
      | error e => rw [hf] at h; cases h
      | ok hsh =>
        rw [hf] at h
        injection h with h'
        injection h' with h''
        exact ⟨href, hsh, rfl, hb, hf, h''.symm⟩
    · rw [if_neg hb] at h
      cases h

theorem handleAnchor_ok_none {attrs : List (Str × Option Str)}
    (h : handleAnchor attrs = .ok none) : acceptedHref attrs = none := by
  cases hh : acceptedHref attrs with
  | none => rfl
  | some href =>
    exfalso
    simp only [handleAnchor, hh] at h
    by_cases hb : netlocBracketsOk (urlparse href).netloc
    · rw [if_pos hb] at h
      cases hf : fragHashes (urlparse href).fragment with
      | error e => rw [hf] at h; cases h
      | ok hsh => rw [hf] at h; injection h with h'; cases h'
    · rw [if_neg hb] at h
      cases h

theorem handleAnchor_error_of_bad_fragment {attrs : List (Str × Option Str)}
    {href : Str} (hh : acceptedHref attrs = some href)
    (hfrag : (urlparse href).fragment ≠ [])
    (hne : '=' ∉ (urlparse href).fragment) :
    handleAnchor attrs = .error () := by
  simp only [handleAnchor, hh]
  by_cases hb : netlocBracketsOk (urlparse href).netloc
  · rw [if_pos hb]
    have hfr : fragHashes (urlparse href).fragment = .error () := by
      simp only [fragHashes, if_neg hfrag, splitOnce_none_of_not_mem hne]
    rw [hfr]
  · rw [if_neg hb]

theorem parseEvents_error_of_mem {events : List Event}
    {attrs : List (Str × Option Str)}
    (hmem : Event.start strA attrs ∈ events)
    (herr : handleAnchor attrs = .error ()) :
    parseEvents events = .error () := by
  induction events with
  | nil => cases hmem
  | cons e rest ih =>
    rcases List.mem_cons.mp hmem with he | hm
    · rw [← he]
      simp [parseEvents, herr]
    · cases e with
      | start tag attrs2 =>
        by_cases ht : tag = strA
        · subst ht
          cases h2 : handleAnchor attrs2 with
          | error e2 => cases e2; simp [parseEvents, h2]
          | ok o =>
            cases o with
            | none => simp [parseEvents, h2]; exact ih hm
            | some a2 => simp [parseEvents, h2, ih hm]
        · simp only [parseEvents, if_neg ht]
          exact ih hm
      | stop tag => exact ih hm
      | text d => exact ih hm

theorem parseEvents_mem : ∀ {events : List Event} {links : List Args},
    parseEvents events = .ok links → ∀ a ∈ links,
    ∃ attrs, Event.start strA attrs ∈ events ∧
      handleAnchor attrs = .ok (some a) := by
  intro events
  induction events with
  | nil =>
    intro links h a ha
    injection h with h'
    rw [← h'] at ha
    cases ha
  | cons e rest ih =>
    intro links h a ha
    cases e with
    | start tag attrs =>
      by_cases ht : tag = strA
      · subst ht
        simp only [parseEvents, if_pos rfl] at h
        cases h2 : handleAnchor attrs with
        | error e2 => rw [h2] at h; cases h
        | ok o =>
          rw [h2] at h
          cases o with
          | none =>
            obtain ⟨attrs2, hm2, hh2⟩ := ih h a ha
            exact ⟨attrs2, List.mem_cons_of_mem _ hm2, hh2⟩
          | some a2 =>
            cases h3 : parseEvents rest with
            | error e3 => rw [h3] at h; cases h
            | ok l3 =>
              rw [h3] at h
              injection h with h'
              rw [← h'] at ha
              rcases List.mem_cons.mp ha with he | hm
              · exact ⟨attrs, List.mem_cons_self _ _, he ▸ h2⟩
              · obtain ⟨attrs2, hm2, hh2⟩ := ih h3 a hm
                exact ⟨attrs2, List.mem_cons_of_mem _ hm2, hh2⟩
      · simp only [parseEvents, if_neg ht] at h
        obtain ⟨attrs2, hm2, hh2⟩ := ih h a ha
        exact ⟨attrs2, List.mem_cons_of_mem _ hm2, hh2⟩
    | stop tag =>
      simp only [parseEvents] at h
      obtain ⟨attrs2, hm2, hh2⟩ := ih h a ha
      exact ⟨attrs2, List.mem_cons_of_mem _ hm2, hh2⟩
    | text d =>
      simp only [parseEvents] at h
      obtain ⟨attrs2, hm2, hh2⟩ := ih h a ha
      exact ⟨attrs2, List.mem_cons_of_mem _ hm2, hh2⟩

theorem parseEvents_length : ∀ {events : List Event} {links : List Args},
    parseEvents events = .ok links →
    links.length = events.countP isAcceptedAnchor := by
  intro events
  induction events with
  | nil =>
    intro links h
    injection h with h'
    rw [← h']
    rfl
  | cons e rest ih =>
    intro links h
    cases e with
    | start tag attrs =>
      by_cases ht : tag = strA
      · subst ht
        simp only [parseEvents, if_pos rfl] at h
        cases h2 : handleAnchor attrs with
        | error e2 => rw [h2] at h; cases h
        | ok o =>
          rw [h2] at h
          cases o with
          | none =>
            have hnone := handleAnchor_ok_none h2
            have : isAcceptedAnchor (Event.start strA attrs) = false := by
              simp [isAcceptedAnchor, hnone]
            rw [List.countP_cons, this]
            simpa using ih h
          | some a2 =>
            obtain ⟨href, hash, hh, _, _, _⟩ := handleAnchor_ok_some h2
            have : isAcceptedAnchor (Event.start strA attrs) = true := by
              simp [isAcceptedAnchor, hh]
            cases h3 : parseEvents rest with
            | error e3 => rw [h3] at h; cases h
            | ok l3 =>
              rw [h3] at h
              injection h with h'
              rw [← h', List.countP_cons, this]
              simp [ih h3]
      · simp only [parseEvents, if_neg ht] at h
        have : isAcceptedAnchor (Event.start tag attrs) = false := by
          simp [isAcceptedAnchor, ht]
        rw [List.countP_cons, this]
        simpa using ih h
    | stop tag =>
      rw [List.countP_cons]
      simp only [parseEvents] at h
      simpa [isAcceptedAnchor] using ih h
    | text d =>
      rw [List.countP_cons]
      simp only [parseEvents] at h
      simpa [isAcceptedAnchor] using ih h

theorem indexNames_render : ∀ items : List (Str ⊕ Str),
    indexNames false (renderIndexDoc items) =
      items.filterMap (fun i => match i with | Sum.inl _ => none | Sum.inr nm => some nm) := by
  intro items
  induction items with
  | nil => rfl
  | cons i rest ih =>
    cases i with
    | inl t =>
      show indexNames false (Event.text t :: renderIndexDoc rest) = _
      simp only [indexNames, Bool.false_eq_true, if_neg, not_false_iff, ih,
        List.filterMap_cons]
    | inr nm =>
      show indexNames false
          (Event.start strA [] :: Event.text nm :: Event.stop strA ::
            renderIndexDoc rest) = _
      simp only [indexNames, if_pos rfl, if_true, ih, List.filterMap_cons]

/-! ## The claims -/

/-- C1: for every document containing an anchor whose non-empty `href`
has a URL fragment with no `=`, `from_project_details_html` propagates a
parse failure instead of returning a result. -/
theorem malformed_fragment_is_parse_failure
    (name : Str) (events : List Event) (attrs : List (Str × Option Str))
    (href : Str)
    (hmem : Event.start strA attrs ∈ events)
    (hhref : acceptedHref attrs = some href)
    (hfrag : (urlparse href).fragment ≠ [])
    (hne : '=' ∉ (urlparse href).fragment) :
    fromProjectDetailsHtml name events = .error () := by
  have herr := handleAnchor_error_of_bad_fragment hhref hfrag hne
  have hp := parseEvents_error_of_mem hmem herr
  simp [fromProjectDetailsHtml, hp]

theorem malformed_fragment_is_parse_failure_witness :
    Event.start strA [(strHref, some (str "bad#nohash"))] ∈
      [Event.start strA [(strHref, some (str "bad#nohash"))]] ∧
    acceptedHref [(strHref, some (str "bad#nohash"))] = some (str "bad#nohash") ∧
    (urlparse (str "bad#nohash")).fragment ≠ [] ∧
    '=' ∉ (urlparse (str "bad#nohash")).fragment ∧
    fromProjectDetailsHtml (str "proj")
      [Event.start strA [(strHref, some (str "bad#nohash"))]] = .error () :=
  ⟨by decide, by decide, by decide, by decide,
   malformed_fragment_is_parse_failure (str "proj")
     [Event.start strA [(strHref, some (str "bad#nohash"))]]
     [(strHref, some (str "bad#nohash"))] (str "bad#nohash")
     (by decide) (by decide) (by decide) (by decide)⟩

/-- C2 counterexample: the anchor `<a href="/">` is accepted and its
record has an empty `filename`, so accepted records do not always have
non-empty `filename` and `url`. -/
theorem accepted_record_empty_filename :
    ¬ ∀ (name : Str) (events : List Event) (d : ProjectDetails),
        fromProjectDetailsHtml name events = .ok d →
        ∀ r ∈ d.files, r.filename ≠ [] ∧ r.url ≠ [] := by
  intro h
  have h1 : fromProjectDetailsHtml (str "p")
      [Event.start strA [(strHref, some (str "/"))]] =
      .ok ⟨str "1.0", str "p", [⟨[], ['/'], [], none, none, none, none⟩]⟩ := by
    decide
  have h2 := h _ _ _ h1 ⟨[], ['/'], [], none, none, none, none⟩ (by simp)
  exact h2.1 rfl

/-- C2 (amended): every anchor with a present, non-empty `href` yields
exactly one complete record and anchors without such an `href` yield
none — the output has one record per accepted anchor — though `filename`
(and `url`) may be the empty string for degenerate hrefs such as `"/"`. -/
theorem one_record_per_accepted_anchor
    (name : Str) (events : List Event) (d : ProjectDetails)
    (h : fromProjectDetailsHtml name events = .ok d) :
    d.files.length = events.countP isAcceptedAnchor ∧
    ∀ r ∈ d.files, ∃ attrs href, Event.start strA attrs ∈ events ∧
      acceptedHref attrs = some href := by
  cases hp : parseEvents events with
  | error e => simp [fromProjectDetailsHtml, hp] at h
  | ok links =>
    simp only [fromProjectDetailsHtml, hp] at h
    injection h with h'
    rw [← h']
    constructor
    · simp [parseEvents_length hp]
    · intro r hr
      simp only [List.mem_map] at hr
      obtain ⟨a, hal, ha⟩ := hr
      obtain ⟨attrs, hmem, hha⟩ := parseEvents_mem hp a hal
      obtain ⟨href, hash, hh, _, _, _⟩ := handleAnchor_ok_some hha
      exact ⟨attrs, href, hmem, hh⟩

theorem one_record_per_accepted_anchor_witness :
    fromProjectDetailsHtml (str "p")
      [Event.start strA [(strHref, some (str "a.tar"))],
       Event.start strA [(str "rel", some (str "x"))],
       Event.start strA [(strHref, some [])],
       Event.text (str "a.tar")] =
      .ok ⟨str "1.0", str "p",
        [⟨str "a.tar", str "a.tar", [], none, none, none, none⟩]⟩ ∧
    (ProjectDetails.mk (str "1.0") (str "p")
        [⟨str "a.tar", str "a.tar", [], none, none, none, none⟩]).files.length =
      [Event.start strA [(strHref, some (str "a.tar"))],
       Event.start strA [(str "rel", some (str "x"))],
       Event.start strA [(strHref, some [])],
       Event.text (str "a.tar")].countP isAcceptedAnchor ∧
    ∀ r ∈ (ProjectDetails.mk (str "1.0") (str "p")
        [⟨str "a.tar", str "a.tar", [], none, none, none, none⟩]).files,
      ∃ attrs href,
        Event.start strA attrs ∈
          [Event.start strA [(strHref, some (str "a.tar"))],
           Event.start strA [(str "rel", some (str "x"))],
           Event.start strA [(strHref, some [])],
           Event.text (str "a.tar")] ∧
        acceptedHref attrs = some href :=
  ⟨by decide,
   (one_record_per_accepted_anchor (str "p")
     [Event.start strA [(strHref, some (str "a.tar"))],
      Event.start strA [(str "rel", some (str "x"))],
      Event.start strA [(strHref, some [])],
      Event.text (str "a.tar")]
     ⟨str "1.0", str "p",
      [⟨str "a.tar", str "a.tar", [], none, none, none, none⟩]⟩ (by decide)).1,
   (one_record_per_accepted_anchor (str "p")
     [Event.start strA [(strHref, some (str "a.tar"))],
      Event.start strA [(str "rel", some (str "x"))],
      Event.start strA [(strHref, some [])],
      Event.text (str "a.tar")]
     ⟨str "1.0", str "p",
      [⟨str "a.tar", str "a.tar", [], none, none, none, none⟩]⟩ (by decide)).2⟩

/-- C3 counterexample: for the empty base URL no separator is inserted,
so the result does not decompose as a `/`-terminated normalized base
followed by the canonical name and a trailing `/`. -/
theorem createProjectUrl_empty_base :
    ¬ ∃ b : Str, b.getLast? = some '/' ∧
      createProjectUrl [] (str "x") = b ++ canonicalizeName (str "x") ++ ['/'] := by
  rintro ⟨b, hb, he⟩
  have h1 : createProjectUrl [] (str "x") = ['x', '/'] := by decide
  have h2 : canonicalizeName (str "x") = ['x'] := by decide
  rw [h1, h2] at he
  have hb0 : b = [] := by
    have h3 := congrArg List.length he
    simp only [List.length_append, List.length_cons, List.length_nil] at h3
    exact List.eq_nil_of_length_eq_zero (by omega)
  rw [hb0] at hb
  simp at hb

/-- C3 (amended): for a non-empty base URL the result is a base
normalized to end in `/` (by appending one only when missing), followed
by the canonical project name and a trailing `/`; for the empty base URL
nothing is prepended.  The function is total by construction. -/
theorem createProjectUrl_spec (base pname : Str) :
    (base = [] → createProjectUrl base pname = canonicalizeName pname ++ ['/']) ∧
    (base ≠ [] → ∃ b, (b = base ∨ b = base ++ ['/']) ∧ b.getLast? = some '/' ∧
      createProjectUrl base pname = b ++ canonicalizeName pname ++ ['/']) := by
  constructor
  · intro hb
    subst hb
    rfl
  · intro hb
    by_cases he : endsWithSlash base
    · refine ⟨base, Or.inl rfl, of_decide_eq_true he, ?_⟩
      simp [createProjectUrl, he]
    · refine ⟨base ++ ['/'], Or.inr rfl, ?_, ?_⟩
      · simp
      · simp [createProjectUrl, he, hb]

theorem createProjectUrl_spec_witness :
    createProjectUrl (str "https://example.com/simple") (str "Holy_Grail") =
      str "https://example.com/simple/holy-grail/" ∧
    (str "https://example.com/simple" ≠ ([] : Str)) ∧
    (∃ b, (b = str "https://example.com/simple" ∨
           b = str "https://example.com/simple" ++ ['/']) ∧
      b.getLast? = some '/' ∧
      createProjectUrl (str "https://example.com/simple") (str "Holy_Grail") =
        b ++ canonicalizeName (str "Holy_Grail") ++ ['/']) :=
  ⟨by decide, by decide,
   (createProjectUrl_spec (str "https://example.com/simple")
     (str "Holy_Grail")).2 (by decide)⟩

/-- C7: for documents whose anchors are attribute-free and contain a
single text chunk, the index parser yields one entry per anchor, in
document order, with the anchor's text verbatim, in the `"1.0"`
envelope; text outside anchors contributes nothing. -/
theorem index_one_entry_per_anchor (items : List (Str ⊕ Str)) :
    fromProjectIndexHtml (renderIndexDoc items) =
      ⟨str "1.0",
       items.filterMap
         (fun i => match i with | Sum.inl _ => none | Sum.inr nm => some nm)⟩ := by
  unfold fromProjectIndexHtml
  rw [indexNames_render]

/-- C9: the canonicalization is idempotent, building a project URL from
a canonical name equals building it from the original, and the `name`
of any successful `from_project_details_html` result is a fixed point of
canonicalization. -/
theorem canonicalization_idempotent :
    (∀ x : Str, canonicalizeName (canonicalizeName x) = canonicalizeName x) ∧
    (∀ base n : Str,
      createProjectUrl base (canonicalizeName n) = createProjectUrl base n) ∧
    (∀ (name : Str) (events : List Event) (d : ProjectDetails),
      fromProjectDetailsHtml name events = .ok d →
      canonicalizeName d.name = d.name) := by
  refine ⟨canonicalizeName_idem, ?_, ?_⟩
  · intro base n
    unfold createProjectUrl
    rw [canonicalizeName_idem]
  · intro name events d h
    cases hp : parseEvents events with
    | error e => simp [fromProjectDetailsHtml, hp] at h
    | ok links =>
      simp only [fromProjectDetailsHtml, hp] at h
      injection h with h'
      rw [← h']
      exact canonicalizeName_idem name

theorem canonicalization_idempotent_witness :
    fromProjectDetailsHtml (str "Holy_Grail") [] =
      .ok ⟨str "1.0", str "holy-grail", []⟩ ∧
    canonicalizeName (ProjectDetails.mk (str "1.0") (str "holy-grail") []).name =
      (ProjectDetails.mk (str "1.0") (str "holy-grail") []).name :=
  ⟨by decide,
   canonicalization_idempotent.2.2 (str "Holy_Grail") []
     ⟨str "1.0", str "holy-grail", []⟩ (by decide)⟩

/-- C4 counterexample: an anchor supplying `data-requires-python=""` is
accepted but its record carries no `requires-python` field, so presence
of the field is not equivalent to the attribute being supplied. -/
theorem requires_python_not_iff_supplied :
    ¬ ∀ (attrs : List (Str × Option Str)) (a : Args),
        handleAnchor attrs = .ok (some a) →
        ((assemble a).requiresPython.isSome = true ↔
          lookupLast attrs strDRP ≠ none) := by
  intro h
  have h2 := h [(strHref, some (str "x")), (strDRP, some [])]
    ⟨['x'], ['x'], none, none, none, none, none⟩ (by decide)
  exact absurd h2 (by decide)

/-- C4 (amended): the `requires-python` field is present exactly when the
`data-requires-python` attribute is supplied with a non-empty value, in
which case it holds the entity-decoded value; a missing attribute, a
valueless attribute or an empty value all leave the field absent. -/
theorem requires_python_field (attrs : List (Str × Option Str)) (a : Args)
    (h : handleAnchor attrs = .ok (some a)) :
    (∀ v, lookupLast attrs strDRP = some (some v) → v ≠ [] →
      (assemble a).requiresPython = some (unescape v)) ∧
    ((lookupLast attrs strDRP = none ∨ lookupLast attrs strDRP = some none ∨
      lookupLast attrs strDRP = some (some [])) →
      (assemble a).requiresPython = none) := by
  obtain ⟨href, hash, hh, hb, hf, hbuild⟩ := handleAnchor_ok_some h
  subst hbuild
  constructor
  · intro v hl hv
    simp [assemble, buildArgs, hl, hv]
  · rintro (hl | hl | hl) <;> simp [assemble, buildArgs, hl]

theorem requires_python_field_witness :
    handleAnchor [(strHref, some (str "x")), (strDRP, some (str "&gt;=3.7"))] =
      .ok (some ⟨['x'], ['x'], none, some (str ">=3.7"), none, none, none⟩) ∧
    (assemble
        (⟨['x'], ['x'], none, some (str ">=3.7"), none, none, none⟩ : Args)).requiresPython =
      some (unescape (str "&gt;=3.7")) ∧
    unescape (str "&gt;=3.7") = str ">=3.7" :=
  ⟨by decide,
   (requires_python_field [(strHref, some (str "x")), (strDRP, some (str "&gt;=3.7"))]
      ⟨['x'], ['x'], none, some (str ">=3.7"), none, none, none⟩ (by decide)).1
     (str "&gt;=3.7") (by decide) (by decide),
   by decide⟩

/-- C5 counterexample: for `data-dist-info-metadata="=y"` the partition
yields an empty algorithm, and the code stores the boolean `true`, not
the single-entry mapping the claim prescribes. -/
theorem dist_info_metadata_not_always_mapping :
    ¬ ∀ (attrs : List (Str × Option Str)) (a : Args) (v : Str),
        handleAnchor attrs = .ok (some a) →
        lookupLast attrs strDIM = some (some v) → v ≠ [] → v ≠ strTrue →
        (assemble a).distInfoMetadata =
          some (Sum.inr [(lowerStr (partitionOnce '=' v).1,
                          (partitionOnce '=' v).2)]) := by
  intro h
  have h2 := h [(strHref, some (str "x")), (strDIM, some (str "=y"))]
    ⟨['x'], ['x'], none, none, none, none, some ([], ['y'])⟩
    (str "=y") (by decide) (by decide) (by decide) (by decide)
  exact absurd h2 (by decide)

/-- C5 (amended): a missing attribute leaves the field absent; an absent,
empty or literal `"true"` value stores `true`; otherwise the value is
partitioned at the first `=` into a lowercased algorithm and digest, and
the field is the single-entry mapping — except that an empty algorithm
part (value beginning with `=`) falls back to the boolean `true`. -/
theorem dist_info_metadata_field (attrs : List (Str × Option Str)) (a : Args)
    (h : handleAnchor attrs = .ok (some a)) :
    (lookupLast attrs strDIM = none → (assemble a).distInfoMetadata = none) ∧
    ((lookupLast attrs strDIM = some none ∨
      lookupLast attrs strDIM = some (some []) ∨
      lookupLast attrs strDIM = some (some strTrue)) →
      (assemble a).distInfoMetadata = some (Sum.inl true)) ∧
    (∀ v, lookupLast attrs strDIM = some (some v) → v ≠ [] → v ≠ strTrue →
      (assemble a).distInfoMetadata =
        (if (partitionOnce '=' v).1 = [] then some (Sum.inl true)
         else some (Sum.inr [(lowerStr (partitionOnce '=' v).1,
                              (partitionOnce '=' v).2)]))) := by
  obtain ⟨href, hash, hh, hb, hf, hbuild⟩ := handleAnchor_ok_some h
  subst hbuild
  refine ⟨fun hl => ?_, fun hl => ?_, fun v hl hv ht => ?_⟩
  · simp [assemble, buildArgs, hl]
  · rcases hl with hl | hl | hl <;>
      simp [assemble, buildArgs, distInfoValue, hl]
  · by_cases halg : (partitionOnce '=' v).1 = []
    · simp [assemble, buildArgs, distInfoValue, lowerStr, hl, hv, ht, halg]
    · simp [assemble, buildArgs, distInfoValue, lowerStr, hl, hv, ht, halg,
        List.map_eq_nil_iff]

theorem dist_info_metadata_field_witness :
    handleAnchor [(strHref, some (str "x")),
      (strDIM, some (str "sha256=deadbeef"))] =
      .ok (some ⟨['x'], ['x'], none, none, none, none,
        some (str "sha256", str "deadbeef")⟩) ∧
    (assemble (⟨['x'], ['x'], none, none, none, none,
        some (str "sha256", str "deadbeef")⟩ : Args)).distInfoMetadata =
      (if (partitionOnce '=' (str "sha256=deadbeef")).1 = []
       then some (Sum.inl true)
       else some (Sum.inr [(lowerStr (partitionOnce '=' (str "sha256=deadbeef")).1,
                            (partitionOnce '=' (str "sha256=deadbeef")).2)])) ∧
    (assemble (⟨['x'], ['x'], none, none, none, none,
        some (str "sha256", str "deadbeef")⟩ : Args)).distInfoMetadata =
      some (Sum.inr [(str "sha256", str "deadbeef")]) ∧
    handleAnchor [(strHref, some (str "x")), (strDIM, none)] =
      .ok (some ⟨['x'], ['x'], none, none, none, none, some ([], [])⟩) ∧
    (assemble (⟨['x'], ['x'], none, none, none, none,
        some ([], [])⟩ : Args)).distInfoMetadata = some (Sum.inl true) :=
  ⟨by decide,
   (dist_info_metadata_field [(strHref, some (str "x")),
       (strDIM, some (str "sha256=deadbeef"))]
      ⟨['x'], ['x'], none, none, none, none,
        some (str "sha256", str "deadbeef")⟩ (by decide)).2.2
     (str "sha256=deadbeef") (by decide) (by decide) (by decide),
   by decide,
   by decide,
   (dist_info_metadata_field [(strHref, some (str "x")), (strDIM, none)]
      ⟨['x'], ['x'], none, none, none, none, some ([], [])⟩ (by decide)).2.1
     (Or.inl (by decide))⟩

/-- C8: a supplied `data-yanked` attribute stores `true` when its value
is absent or empty and the raw reason string otherwise; the field is
absent when the attribute is not supplied. -/
theorem yanked_field (attrs : List (Str × Option Str)) (a : Args)
    (h : handleAnchor attrs = .ok (some a)) :
    (lookupLast attrs strYanked = none → (assemble a).yanked = none) ∧
    (lookupLast attrs strYanked = some none →
      (assemble a).yanked = some (Sum.inl true)) ∧
    (lookupLast attrs strYanked = some (some []) →
      (assemble a).yanked = some (Sum.inl true)) ∧
    (∀ v, lookupLast attrs strYanked = some (some v) → v ≠ [] →
      (assemble a).yanked = some (Sum.inr v)) := by
  obtain ⟨href, hash, hh, hb, hf, hbuild⟩ := handleAnchor_ok_some h
  subst hbuild
  refine ⟨fun hl => ?_, fun hl => ?_, fun hl => ?_, fun v hl hv => ?_⟩
  · simp [assemble, buildArgs, hl]
  · simp [assemble, buildArgs, hl]
  · simp [assemble, buildArgs, hl]
  · simp [assemble, buildArgs, hl, hv]

theorem yanked_field_witness :
    handleAnchor [(strHref, some (str "x")), (strYanked, none)] =
      .ok (some ⟨['x'], ['x'], none, none, none, some (Sum.inl true), none⟩) ∧
    (assemble (⟨['x'], ['x'], none, none, none, some (Sum.inl true), none⟩ :
        Args)).yanked = some (Sum.inl true) ∧
    handleAnchor [(strHref, some (str "x")),
      (strYanked, some (str "CVE-2021-1234"))] =
      .ok (some ⟨['x'], ['x'], none, none, none,
        some (Sum.inr (str "CVE-2021-1234")), none⟩) ∧
    (assemble (⟨['x'], ['x'], none, none, none,
        some (Sum.inr (str "CVE-2021-1234")), none⟩ : Args)).yanked =
      some (Sum.inr (str "CVE-2021-1234")) :=
  ⟨by decide,
   (yanked_field [(strHref, some (str "x")), (strYanked, none)]
      ⟨['x'], ['x'], none, none, none, some (Sum.inl true), none⟩
      (by decide)).2.1 (by decide),
   by decide,
   (yanked_field [(strHref, some (str "x")),
       (strYanked, some (str "CVE-2021-1234"))]
      ⟨['x'], ['x'], none, none, none,
        some (Sum.inr (str "CVE-2021-1234")), none⟩ (by decide)).2.2.2
     (str "CVE-2021-1234") (by decide) (by decide)⟩

/-- C6 counterexample: the href `"HTTP://e/x#sha256=abc"` is re-serialized
with a lowercased scheme, so the record's `url` is `"http://e/x"`, not the
href with the fragment removed. -/
theorem url_not_always_fragment_stripped :
    ¬ ∀ (attrs : List (Str × Option Str)) (a : Args) (href : Str),
        handleAnchor attrs = .ok (some a) → acceptedHref attrs = some href →
        (assemble a).url = stripFragment href := by
  intro h
  have h2 := h [(strHref, some (str "HTTP://e/x#sha256=abc"))]
    ⟨['x'], str "http://e/x", some (str "sha256", str "abc"), none, none,
      none, none⟩
    (str "HTTP://e/x#sha256=abc") (by decide) (by decide)
  exact absurd h2 (by decide)

/-- C6 (amended): for every accepted anchor, `filename` is the
percent-decoded final `/`-segment of the parsed URL path, `hashes` is
empty when the href has no fragment and is the one-entry mapping from the
lowercased algorithm to the digest for a well-formed fragment
`<algo>=<value>`; the `url` field equals the href with the fragment
removed whenever the href needs no URL normalization — no scheme prefix
(no `:`), no `;`, no `?`, no leading `//` and no control characters —
as with the relative paths a Simple index serves. -/
theorem accepted_record_url_filename_hashes
    (attrs : List (Str × Option Str)) (a : Args) (href : Str)
    (h : handleAnchor attrs = .ok (some a))
    (hhref : acceptedHref attrs = some href) :
    ((scrubUrl href = href ∧ ':' ∉ href ∧ ';' ∉ href ∧ '?' ∉ href ∧
        href.take 2 ≠ str "//") →
      (assemble a).url = stripFragment href) ∧
    (assemble a).filename = unquote (rpartitionLast '/' (urlparse href).path) ∧
    ((urlparse href).fragment = [] → (assemble a).hashes = []) ∧
    (∀ alg v, (urlparse href).fragment = alg ++ '=' :: v → '=' ∉ alg →
      (assemble a).hashes = [(lowerStr alg, v)]) := by
  obtain ⟨href2, hash, hh2, hb, hf, hbuild⟩ := handleAnchor_ok_some h
  rw [hhref] at hh2
  injection hh2 with he2
  subst he2
  subst hbuild
  refine ⟨?_, ?_, ?_, ?_⟩
  · rintro ⟨hscrub, hc, hs, hq, hn⟩
    have hu := urlparse_simple hscrub hc hs hq hn
    show urlunparse5 (urlparse href) = stripFragment href
    rw [hu]
    exact urlunparse5_no_scheme_netloc _ _
  · rfl
  · intro hfrag
    rw [hfrag] at hf
    have : hash = none := by
      simpa [fragHashes] using hf.symm
    subst this
    rfl
  · intro alg v hfrag hne
    have hne' : (alg ++ '=' :: v : Str) ≠ [] := by simp
    have hs2 : fragHashes (urlparse href).fragment =
        .ok (some (lowerStr alg, v)) := by
      rw [hfrag]
      simp only [fragHashes, if_neg hne', splitOnce_of_append hne]
    rw [hs2] at hf
    injection hf with hf'
    rw [← hf']
    rfl

theorem accepted_record_url_filename_hashes_witness :
    handleAnchor [(strHref,
        some (str "../../packages/foo-1.0.tar.gz#sha256=abc123"))] =
      .ok (some ⟨str "foo-1.0.tar.gz", str "../../packages/foo-1.0.tar.gz",
        some (str "sha256", str "abc123"), none, none, none, none⟩) ∧
    (assemble (⟨str "foo-1.0.tar.gz", str "../../packages/foo-1.0.tar.gz",
        some (str "sha256", str "abc123"), none, none, none, none⟩ :
        Args)).url =
      stripFragment (str "../../packages/foo-1.0.tar.gz#sha256=abc123") ∧
    (assemble (⟨str "foo-1.0.tar.gz", str "../../packages/foo-1.0.tar.gz",
        some (str "sha256", str "abc123"), none, none, none, none⟩ :
        Args)).filename = str "foo-1.0.tar.gz" ∧
    (assemble (⟨str "foo-1.0.tar.gz", str "../../packages/foo-1.0.tar.gz",
        some (str "sha256", str "abc123"), none, none, none, none⟩ :
        Args)).hashes = [(str "sha256", str "abc123")] := by
  have hmain := accepted_record_url_filename_hashes
    [(strHref, some (str "../../packages/foo-1.0.tar.gz#sha256=abc123"))]
    ⟨str "foo-1.0.tar.gz", str "../../packages/foo-1.0.tar.gz",
      some (str "sha256", str "abc123"), none, none, none, none⟩
    (str "../../packages/foo-1.0.tar.gz#sha256=abc123")
    (by decide) (by decide)
  refine ⟨by decide, hmain.1 (by decide), by decide, ?_⟩
  have h4 := hmain.2.2.2 (str "sha256") (str "abc123") (by decide) (by decide)
  simpa using h4

/-- C10: every record's `hashes` mapping has at most one entry, because
the fragment is split only at the first `=`; a fragment `<algo>=<rest>`
with `=`-free `<algo>` yields exactly the one entry mapping the
lowercased algorithm to the remainder, which may itself contain `=`. -/
theorem hashes_at_most_one_entry :
    (∀ (name : Str) (events : List Event) (d : ProjectDetails),
      fromProjectDetailsHtml name events = .ok d →
      ∀ r ∈ d.files, r.hashes.length ≤ 1) ∧
    (∀ (attrs : List (Str × Option Str)) (a : Args) (href alg v : Str),
      handleAnchor attrs = .ok (some a) → acceptedHref attrs = some href →
      (urlparse href).fragment = alg ++ '=' :: v → '=' ∉ alg →
      (assemble a).hashes = [(lowerStr alg, v)]) := by
  constructor
  · intro name events d h r hr
    cases hp : parseEvents events with
    | error e => simp [fromProjectDetailsHtml, hp] at h
    | ok links =>
      simp only [fromProjectDetailsHtml, hp] at h
      injection h with h'
      rw [← h'] at hr
      simp only [List.mem_map] at hr
      obtain ⟨a, _, ha⟩ := hr
      rw [← ha]
      cases hh : a.hashes <;> simp [assemble, hh]
  · intro attrs a href alg v h hhref hfrag hne
    obtain ⟨href2, hash, hh2, hb, hf, hbuild⟩ := handleAnchor_ok_some h
    rw [hhref] at hh2
    injection hh2 with he2
    subst he2
    subst hbuild
    have hne' : (alg ++ '=' :: v : Str) ≠ [] := by simp
    have hs2 : fragHashes (urlparse href).fragment =
        .ok (some (lowerStr alg, v)) := by
      rw [hfrag]
      simp only [fragHashes, if_neg hne', splitOnce_of_append hne]
    rw [hs2] at hf
    injection hf with hf'
    rw [← hf']
    rfl

theorem hashes_at_most_one_entry_witness :
    fromProjectDetailsHtml (str "p")
      [Event.start strA [(strHref, some (str "pkg.tar#sha256=a=b"))]] =
      .ok ⟨str "1.0", str "p",
        [⟨str "pkg.tar", str "pkg.tar", [(str "sha256", str "a=b")],
          none, none, none, none⟩]⟩ ∧
    (∀ r ∈ (ProjectDetails.mk (str "1.0") (str "p")
        [⟨str "pkg.tar", str "pkg.tar", [(str "sha256", str "a=b")],
          none, none, none, none⟩]).files, r.hashes.length ≤ 1) ∧
    (ProjectDetails.mk (str "1.0") (str "p")
        [⟨str "pkg.tar", str "pkg.tar", [(str "sha256", str "a=b")],
          none, none, none, none⟩]).files.map (fun r => r.hashes) =
      [[(str "sha256", str "a=b")]] :=
  ⟨by decide,
   hashes_at_most_one_entry.1 (str "p")
     [Event.start strA [(strHref, some (str "pkg.tar#sha256=a=b"))]]
     ⟨str "1.0", str "p",
       [⟨str "pkg.tar", str "pkg.tar", [(str "sha256", str "a=b")],
         none, none, none, none⟩]⟩ (by decide),
   by decide⟩
